import Mathlib

/-!
Verification development for the `visualizer` repository.

Part 1 embeds the repository's sole source file, `mx.visualizer/suite.py`,
which is an mx build-suite manifest: a single module-level assignment of a
dictionary named `suite`.  Part 2 models the hierarchical graph layout
engine that the specification describes (the repository ships only the
manifest, no engine code), and proves the specification's testable
properties against that model.
-/

namespace Visualizer

/-- A project declaration inside the manifest's `projects` dictionary.
Translated from `src/mx.visualizer/suite.py`.  The misspelled key
`dependecnies` appears verbatim in the source (in the `Bytecodes` entry)
and is kept as a distinct field from the correctly spelled
`dependencies` (used only by the `NetworkConnection` entry). -/
structure MxProject where
  subDir : String
  sourceDirs : List String
  checkstyle : String
  javaCompliance : String
  dependencies : Option (List String) := none
  dependecnies : Option (List String) := none
deriving DecidableEq, Repr

/-- The whole `suite` dictionary: scalar metadata plus the ordered
`projects` dictionary (modelled as an association list, preserving the
source order of entries). -/
structure MxSuite where
  mxversion : String
  name : String
  defaultLicense : String
  libraries : List (String × String)
  projects : List (String × MxProject)
deriving DecidableEq, Repr

/-- The `suite` value assigned in `src/mx.visualizer/suite.py`, entry by
entry in source order. -/
def suite : MxSuite :=
  { mxversion := "5.67.1"
    name := "visualizer"
    defaultLicense := "GPLv2-CPE"
    libraries := []
    projects :=
      [ ("BatikSVGProxy",
          { subDir := "IdealGraphVisualizer", sourceDirs := ["src"],
            checkstyle := "Data", javaCompliance := "1.8" }),
        ("Bytecodes",
          { subDir := "IdealGraphVisualizer", sourceDirs := ["src"],
            dependecnies := some ["Data", "Graph", "Util"],
            checkstyle := "Data", javaCompliance := "1.8" }),
        ("Data",
          { subDir := "IdealGraphVisualizer", sourceDirs := ["src"],
            checkstyle := "Data", javaCompliance := "1.8" }),
        ("ControlFlow",
          { subDir := "IdealGraphVisualizer", sourceDirs := ["src"],
            checkstyle := "Data", javaCompliance := "1.8" }),
        ("Coordinator",
          { subDir := "IdealGraphVisualizer", sourceDirs := ["src"],
            checkstyle := "Data", javaCompliance := "1.8" }),
        ("Difference",
          { subDir := "IdealGraphVisualizer", sourceDirs := ["src"],
            checkstyle := "Data", javaCompliance := "1.8" }),
        ("Filter",
          { subDir := "IdealGraphVisualizer", sourceDirs := ["src"],
            checkstyle := "Data", javaCompliance := "1.8" }),
        ("FilterWindow",
          { subDir := "IdealGraphVisualizer", sourceDirs := ["src"],
            checkstyle := "Data", javaCompliance := "1.8" }),
        ("Graal",
          { subDir := "IdealGraphVisualizer", sourceDirs := ["src"],
            checkstyle := "Data", javaCompliance := "1.8" }),
        ("Graph",
          { subDir := "IdealGraphVisualizer", sourceDirs := ["src"],
            checkstyle := "Data", javaCompliance := "1.8" }),
        ("HierarchicalLayout",
          { subDir := "IdealGraphVisualizer", sourceDirs := ["src"],
            checkstyle := "Data", javaCompliance := "1.8" }),
        ("Layout",
          { subDir := "IdealGraphVisualizer", sourceDirs := ["src"],
            checkstyle := "Data", javaCompliance := "1.8" }),
        ("NetworkConnection",
          { subDir := "IdealGraphVisualizer", sourceDirs := ["src"],
            dependencies := some ["Data"],
            checkstyle := "Data", javaCompliance := "1.8=" }),
        ("SeletionCoordinator",
          { subDir := "IdealGraphVisualizer", sourceDirs := ["src"],
            checkstyle := "Data", javaCompliance := "1.8" }),
        ("Settings",
          { subDir := "IdealGraphVisualizer", sourceDirs := ["src"],
            checkstyle := "Data", javaCompliance := "1.8" }),
        ("Util",
          { subDir := "IdealGraphVisualizer", sourceDirs := ["src"],
            checkstyle := "Data", javaCompliance := "1.8" }),
        ("View",
          { subDir := "IdealGraphVisualizer", sourceDirs := ["src"],
            checkstyle := "Data", javaCompliance := "1.8" }) ] }

/-- A top-level Python statement, at the granularity the manifest needs:
the module either assigns the `suite` dictionary, defines a function,
defines a class, or does something else. -/
inductive PyStmt where
  | assignSuite (value : MxSuite)
  | functionDef (name : String)
  | classDef (name : String)
  | otherStmt
deriving DecidableEq, Repr

/-- Whether a statement is executable logic beyond the dictionary
assignment (a function definition, class definition, or other
statement). -/
def PyStmt.isLogic : PyStmt → Bool
  | .assignSuite _ => false
  | .functionDef _ => true
  | .classDef _ => true
  | .otherStmt => true

/-- The body of the module `src/mx.visualizer/suite.py`: its only
top-level statement is the assignment of the `suite` dictionary. -/
def suiteModule : List PyStmt := [PyStmt.assignSuite suite]

/-- The project names declared in the manifest, in source order. -/
def projectNames : List String := suite.projects.map (fun p => p.1)

/-- Look up a project entry by name. -/
def projectNamed (s : String) : Option MxProject :=
  (suite.projects.filter (fun p => p.1 = s)).head?.map (fun p => p.2)

/-!
## The layout engine model

Modelled from the spec: the repository contains no implementation of the
hierarchical layout engine (only the module manifest above), so the data
model of spec section 3 and the pipeline of spec section 4 (Cycle Breaker,
Layer Assigner, Crossing Reducer, Coordinate Assigner, Edge Router, Layout
Stabilizer) are translated here from the specification's words.
-/

/-- Modelled from the spec: a node of a Graph snapshot — stable identity
plus display size (spec section 3, "Node"). -/
structure Node where
  id : Nat
  width : Nat := 1
  height : Nat := 1
deriving DecidableEq, Repr

/-- Modelled from the spec: a directed edge, an ordered pair of node
identities (spec section 3, "Edge"). -/
structure Edge where
  src : Nat
  tgt : Nat
deriving DecidableEq, Repr

/-- Modelled from the spec: an immutable Graph snapshot — the sets of
nodes and edges as ingested at one point in time (spec section 3,
"Graph (snapshot)"); groups are not needed by any claim and are omitted. -/
structure Graph where
  nodes : List Node
  edges : List Edge
deriving DecidableEq, Repr

/-- The node identities of a snapshot, in snapshot order. -/
def Graph.ids (g : Graph) : List Nat := g.nodes.map (fun n => n.id)

/-- The edges of a snapshot as (source, target) identity pairs. -/
def Graph.pairs (g : Graph) : List (Nat × Nat) :=
  g.edges.map (fun e => (e.src, e.tgt))

/-- Successors of a node, in edge order. -/
def Graph.adj (g : Graph) (u : Nat) : List Nat :=
  ((g.pairs).filter (fun p => p.1 = u)).map (fun p => p.2)

/-- Internal consistency of a snapshot (spec section 6: edges reference
only nodes present in the same snapshot). -/
def Graph.Valid (g : Graph) : Prop :=
  ∀ p ∈ g.pairs, p.1 ∈ g.ids ∧ p.2 ∈ g.ids

instance (g : Graph) : Decidable g.Valid :=
  inferInstanceAs (Decidable (∀ p ∈ g.pairs, p.1 ∈ g.ids ∧ p.2 ∈ g.ids))

/-- Boolean form of `Graph.Valid`, used by the engine's reference check. -/
def Graph.validB (g : Graph) : Bool :=
  g.pairs.all (fun p => decide (p.1 ∈ g.ids) && decide (p.2 ∈ g.ids))

/-- Insert into a sorted list of identities (ascending). -/
def insertNat (x : Nat) : List Nat → List Nat
  | [] => [x]
  | y :: ys => if x ≤ y then x :: y :: ys else y :: insertNat x ys

/-- Sort a list of identities ascending — the fixed, reproducible
traversal order by stable identity that spec section 4.1 requires. -/
def sortNat (l : List Nat) : List Nat := l.foldr insertNat []

/-- The snapshot's node identities in the fixed traversal order. -/
def Graph.sortedIds (g : Graph) : List Nat := sortNat g.ids

/-- Modelled from the spec: the working state of the Cycle Breaker's
depth-first traversal (spec section 4.1) — nodes already visited, the
current traversal stack, the finished nodes in reverse finish order
(head = last finished), and the edges marked reversed. -/
structure DfsState where
  visited : List Nat
  stack : List Nat
  post : List Nat
  rev : List (Nat × Nat)
deriving DecidableEq, Repr

/-- The empty traversal state. -/
def dfsInit : DfsState := { visited := [], stack := [], post := [], rev := [] }

/-- Entering a node: it becomes visited and goes on the traversal
stack. -/
def dfsPush (u : Nat) (st : DfsState) : DfsState :=
  { st with visited := u :: st.visited, stack := u :: st.stack }

/-- Leaving a node: it comes off the traversal stack and is recorded as
finished. -/
def dfsClose (u : Nat) (st : DfsState) : DfsState :=
  { st with stack := st.stack.tail, post := u :: st.post }

/-- Handling one outgoing edge `u → v` of the node `u` being expanded:
an edge leading to a node already on the current stack is marked
reversed, an edge to an already visited node is skipped, and any other
edge is followed recursively (spec section 4.1). -/
def dfsBody (dfs : Nat → DfsState → DfsState) (u : Nat) (s : DfsState) (v : Nat) : DfsState :=
  if v ∈ s.stack then { s with rev := (u, v) :: s.rev }
  else if v ∈ s.visited then s
  else dfs v s

/-- Modelled from the spec: one depth-first visit of the Cycle Breaker
(spec section 4.1).  The node is pushed on the traversal stack, each
outgoing edge is examined in order, and finally the node is popped and
recorded as finished.  The fuel argument bounds the recursion depth; it
never runs out when it starts at the number of nodes of a consistent
snapshot. -/
def dfsVisit (adj : Nat → List Nat) : Nat → Nat → DfsState → DfsState
  | 0, _, st => st
  | fuel + 1, u, st =>
    dfsClose u ((adj u).foldl (dfsBody (dfsVisit adj fuel) u) (dfsPush u st))

/-- The start nodes of the traversal: nodes with no incoming edges,
in the fixed identity order (spec section 4.1). -/
def Graph.rootIds (g : Graph) : List Nat :=
  g.sortedIds.filter (fun u => decide (∀ p ∈ g.pairs, p.2 ≠ u))

/-- Modelled from the spec: the full Cycle Breaker run (spec section
4.1): depth-first traversal from the nodes with no incoming edges,
falling back to the remaining nodes in identity order for nodes only
reachable via cycles. -/
def dfsRun (g : Graph) : DfsState :=
  (g.rootIds ++ g.sortedIds).foldl
    (fun st u =>
      if u ∈ st.visited then st else dfsVisit g.adj g.sortedIds.length u st)
    dfsInit

/-- The set of originally-reversed edges output by the Cycle Breaker. -/
def reversedEdges (g : Graph) : List (Nat × Nat) := (dfsRun g).rev

/-- The edge pairs of the LayeringGraph, in post-reversal orientation:
an edge marked reversed by the Cycle Breaker points from its original
target to its original source. -/
def orientedPairs (g : Graph) : List (Nat × Nat) :=
  g.pairs.map (fun p => if p ∈ reversedEdges g then (p.2, p.1) else p)

/-- The deterministic topological processing order produced by the
traversal (reverse finish order). -/
def dfsOrder (g : Graph) : List Nat := (dfsRun g).post

/-- First-match association-list lookup. -/
def alookup {α β : Type} [DecidableEq α] : List (α × β) → α → Option β
  | [], _ => none
  | (k, v) :: r, n => if k = n then some v else alookup r n

/-- Modelled from the spec: the layer of one node during longest-path
layering (spec section 4.2) — `1 + max(layer of predecessors)`, and `0`
for a node with no (already layered) predecessor. -/
def layerFor (oe : List (Nat × Nat)) (acc : List (Nat × Nat)) (n : Nat) : Nat :=
  match (oe.filter (fun p => p.2 = n)).filterMap (fun p => alookup acc p.1) with
  | [] => 0
  | x :: xs => 1 + xs.foldl max x

/-- Longest-path layering over a topological processing order; the
accumulator holds the layers already assigned. -/
def assignLayersAux (oe : List (Nat × Nat)) : List Nat → List (Nat × Nat) → List (Nat × Nat)
  | [], acc => acc
  | n :: rest, acc => assignLayersAux oe rest (acc ++ [(n, layerFor oe acc n)])

/-- Modelled from the spec: the Layer Assigner (spec section 4.2) —
longest-path layering computed via topological traversal. -/
def assignLayers (oe : List (Nat × Nat)) (ord : List Nat) : List (Nat × Nat) :=
  assignLayersAux oe ord []

/-- The layer table the pipeline computes for a snapshot. -/
def layersOf (g : Graph) : List (Nat × Nat) :=
  assignLayers (orientedPairs g) (dfsOrder g)

/-- The integer layer assigned to a node. -/
def layerOf (g : Graph) (n : Nat) : Option Nat := alookup (layersOf g) n

/-- Modelled from the spec: a node of the ordered, layered working
structure — a real node of the snapshot, or a dummy node inserted for an
edge spanning more than one layer (spec sections 3 and 4.2): `dum i L` is
the synthetic node of the edge with index `i` on intermediate layer `L`. -/
inductive LN where
  | real (n : Nat)
  | dum (e : Nat) (layer : Nat)
deriving DecidableEq, Repr

/-- The working context of the ordering and coordinate stages: the
enumerated post-reversal edges, the layer table, and the layer count. -/
structure LayerCtx where
  oe : List (Nat × (Nat × Nat))
  lay : List (Nat × Nat)
  nlay : Nat
deriving DecidableEq, Repr

/-- Build the working context for a snapshot. -/
def mkCtx (g : Graph) : LayerCtx :=
  let lay := layersOf g
  { oe := (orientedPairs g).enum
    lay := lay
    nlay := match lay with
      | [] => 0
      | _ => (lay.map (fun p => p.2)).foldl max 0 + 1 }

/-- The layer of a node, defaulting to 0 (only consistent snapshots
matter; every real node of such a snapshot is layered). -/
def layerOfD (c : LayerCtx) (n : Nat) : Nat := (alookup c.lay n).getD 0

/-- The working node an edge chain occupies on a given layer: the real
endpoint on its endpoint layers, a dummy node in between. -/
def chainNode (c : LayerCtx) (i s t L : Nat) : LN :=
  if L = layerOfD c s then .real s
  else if L = layerOfD c t then .real t
  else .dum i L

/-- The edge segments between layer `L` and layer `L + 1`: every spanning
edge contributes the pair of working nodes its chain occupies on the two
adjacent layers (spec section 4.2: dummy nodes make all segments connect
adjacent layers only). -/
def segsAt (c : LayerCtx) (L : Nat) : List (LN × LN) :=
  c.oe.filterMap (fun ip =>
    let s := ip.2.1
    let t := ip.2.2
    if layerOfD c s ≤ L ∧ L + 1 ≤ layerOfD c t then
      some (chainNode c ip.1 s t L, chainNode c ip.1 s t (L + 1))
    else none)

/-- The dummy nodes living on layer `L`. -/
def dumsAt (c : LayerCtx) (L : Nat) : List LN :=
  c.oe.filterMap (fun ip =>
    if layerOfD c ip.2.1 < L ∧ L < layerOfD c ip.2.2 then
      some (.dum ip.1 L)
    else none)

/-- The real nodes living on layer `L`, in identity order. -/
def realsAt (g : Graph) (c : LayerCtx) (L : Nat) : List LN :=
  (g.sortedIds.filter (fun n => decide (alookup c.lay n = some L))).map .real

/-- The initial per-layer node order handed to the Crossing Reducer. -/
def initOrders (g : Graph) (c : LayerCtx) : List (List LN) :=
  (List.range c.nlay).map (fun L => realsAt g c L ++ dumsAt c L)

/-- The position of a working node within a layer's order. -/
def posIn (l : List LN) (x : LN) : Nat :=
  match l with
  | [] => 0
  | y :: ys => if y = x then 0 else posIn ys x + 1

/-- The number of crossings among a list of segments between two adjacent
layers with the given orders: pairs of segments whose endpoints compare in
opposite orders on the two layers. -/
def countCrossings (a b : List LN) : List (LN × LN) → Nat
  | [] => 0
  | sg :: rest =>
    rest.countP (fun t =>
      decide ((posIn a sg.1 < posIn a t.1 ∧ posIn b t.2 < posIn b sg.2) ∨
              (posIn a t.1 < posIn a sg.1 ∧ posIn b sg.2 < posIn b t.2))) +
    countCrossings a b rest

/-- Total crossings of a layer ordering, summed over adjacent layer
pairs, starting at layer index `L`. -/
def totalCrossGo (c : LayerCtx) : Nat → List (List LN) → Nat
  | _, [] => 0
  | L, a :: rest =>
    (match rest.head? with
     | some b => countCrossings a b (segsAt c L)
     | none => 0) + totalCrossGo c (L + 1) rest

/-- Total number of edge-segment crossings of a layer ordering. -/
def totalCross (c : LayerCtx) (os : List (List LN)) : Nat := totalCrossGo c 0 os

/-- Median of a list of positions (lower median), with a default for an
empty list. -/
def median (l : List Nat) (dflt : Nat) : Nat :=
  match sortNat l with
  | [] => dflt
  | x :: xs => (x :: xs).getD (xs.length / 2) dflt

/-- Stable insertion: a node is placed after every node of equal key, so
ties are broken by the previous order (spec section 4.3). -/
def insertAfterEq (key : LN → Nat) (x : LN) : List LN → List LN
  | [] => [x]
  | y :: ys => if key x < key y then x :: y :: ys else y :: insertAfterEq key x ys

/-- Stable sort by key. -/
def stableSortByKey (key : LN → Nat) (l : List LN) : List LN :=
  l.foldl (fun acc x => insertAfterEq key x acc) []

/-- Modelled from the spec: reorder one layer by the median position of
each node's neighbors in the reference layer, keeping the previous order
for nodes without neighbors and on ties (spec section 4.3). -/
def reorderLayer (ref cur : List LN) (nb : LN → List LN) : List LN :=
  stableSortByKey
    (fun x => median ((nb x).map (fun y => posIn ref y)) (posIn cur x)) cur

/-- Downward sweep below an already fixed previous layer; `L` is the
layer index of `prev`, so `segsAt c L` holds the segments between `prev`
and the layer being reordered. -/
def sweepDownGo (c : LayerCtx) : Nat → List LN → List (List LN) → List (List LN)
  | _, _, [] => []
  | L, prev, b :: rest =>
    let segs := segsAt c L
    let b' := reorderLayer prev b
      (fun x => ((segs.filter (fun sg => sg.2 = x)).map (fun sg => sg.1)))
    b' :: sweepDownGo c (L + 1) b' rest

/-- One downward sweep: each layer is reordered by the median position of
its predecessors in the (already reordered) layer above. -/
def sweepDown (c : LayerCtx) (os : List (List LN)) : List (List LN) :=
  match os with
  | [] => []
  | a :: rest => a :: sweepDownGo c 0 a rest

/-- Upward sweep: each layer is reordered by the median position of its
successors in the (already reordered) layer below; `L` is the layer index
of the layer at the head. -/
def sweepUpGo (c : LayerCtx) : Nat → List (List LN) → List (List LN)
  | _, [] => []
  | L, a :: rest =>
    match sweepUpGo c (L + 1) rest with
    | [] => [a]
    | b' :: r' =>
      let segs := segsAt c L
      let a' := reorderLayer b' a
        (fun x => ((segs.filter (fun sg => sg.1 = x)).map (fun sg => sg.2)))
      a' :: b' :: r'

/-- One upward sweep over all layers. -/
def sweepUp (c : LayerCtx) (os : List (List LN)) : List (List LN) := sweepUpGo c 0 os

/-- One full iteration of the Crossing Reducer: a downward sweep followed
by an upward sweep (spec section 4.3, alternating sweeps). -/
def sweepBoth (c : LayerCtx) (os : List (List LN)) : List (List LN) :=
  sweepUp c (sweepDown c os)

/-- Modelled from the spec: the Crossing Reducer's iteration (spec
section 4.3): at most the configured number of alternating sweep
iterations, stopping early as soon as an iteration does not improve the
crossing count. -/
def reduceIter (c : LayerCtx) : Nat → List (List LN) → List (List LN)
  | 0, os => os
  | n + 1, os =>
    let os' := sweepBoth c os
    if totalCross c os' < totalCross c os then reduceIter c n os' else os

/-- Back-edge routing style (spec section 6, recognized options). -/
inductive BackStyle where
  | curved
  | stepped
deriving DecidableEq, Repr

/-- Modelled from the spec: the configuration consumed by the engine
(spec section 6): inter-layer spacing, intra-layer minimum gap, maximum
crossing-reduction iterations, stabilization flag, back-edge style. -/
structure LayoutConfig where
  layerSpace : Nat := 30
  nodeGap : Nat := 10
  maxIters : Nat := 4
  stabilize : Bool := false
  backStyle : BackStyle := .curved
deriving DecidableEq, Repr

/-- The final per-layer orders after crossing reduction. -/
def finalOrders (cfg : LayoutConfig) (g : Graph) : List (List LN) :=
  let c := mkCtx g
  reduceIter c cfg.maxIters (initOrders g c)

/-- Modelled from the spec: the result Layout (spec section 3) — a
mapping from node identity to position and from edge to an ordered point
sequence. -/
structure Layout where
  nodePos : List (Nat × (Nat × Nat))
  routes : List ((Nat × Nat) × List (Nat × Nat))
deriving DecidableEq, Repr

/-- The height of a layer: the maximum node height on it (spec section
4.4). -/
def layerHeightAt (g : Graph) (c : LayerCtx) (L : Nat) : Nat :=
  (g.nodes.filter (fun nd => decide (alookup c.lay nd.id = some L))).foldl
    (fun a nd => max a nd.height) 0

/-- The y coordinate of a layer: layers packed top to bottom with the
configured inter-layer spacing (spec section 4.4). -/
def yOfLayer (cfg : LayoutConfig) (g : Graph) (c : LayerCtx) : Nat → Nat
  | 0 => 0
  | L + 1 => yOfLayer cfg g c L + layerHeightAt g c L + cfg.layerSpace

/-- Display width of a working node (dummy nodes are thin). -/
def widthLN (g : Graph) : LN → Nat
  | .real n =>
    match (g.nodes.filter (fun nd => nd.id = n)).head? with
    | some nd => nd.width
    | none => 1
  | .dum _ _ => 1

/-- Initial x coordinates within one layer: nodes packed left to right in
order, separated by the configured minimum gap. -/
def baseXsGo (cfg : LayoutConfig) (g : Graph) : Nat → List LN → List (LN × Nat)
  | _, [] => []
  | x0, x :: rest => (x, x0) :: baseXsGo cfg g (x0 + widthLN g x + cfg.nodeGap) rest

/-- Initial x coordinates for all layers. -/
def baseAllXs (cfg : LayoutConfig) (g : Graph) : List (List LN) → List (LN × Nat)
  | [] => []
  | l :: rest => baseXsGo cfg g 0 l ++ baseAllXs cfg g rest

/-- The mean of the x coordinates of a node's neighbors in the adjacent
layers, or its current x when it has none (spec section 4.4, alignment). -/
def desiredX (c : LayerCtx) (xm : List (LN × Nat)) (L : Nat) (x : LN) (cur : Nat) : Nat :=
  let ps := if L = 0 then []
            else ((segsAt c (L - 1)).filter (fun sg => sg.2 = x)).map (fun sg => sg.1)
  let ss := ((segsAt c L).filter (fun sg => sg.1 = x)).map (fun sg => sg.2)
  match (ps ++ ss).filterMap (fun y => alookup xm y) with
  | [] => cur
  | v :: vr => ((v :: vr).foldl (fun a b => a + b) 0) / (vr.length + 1)

/-- Enforce the minimum horizontal gap between same-layer siblings, left
to right (spec section 4.4). -/
def fixGaps (cfg : LayoutConfig) (g : Graph) : Nat → List (LN × Nat) → List (LN × Nat)
  | _, [] => []
  | minx, (x, v) :: rest =>
    let v' := max v minx
    (x, v') :: fixGaps cfg g (v' + widthLN g x + cfg.nodeGap) rest

/-- One alignment step on one layer: pull every node toward the mean x of
its neighbors, then restore the minimum gaps. -/
def alignLayer (cfg : LayoutConfig) (g : Graph) (c : LayerCtx) (xm : List (LN × Nat))
    (L : Nat) (l : List LN) : List (LN × Nat) :=
  fixGaps cfg g 0 (l.map (fun x => (x, desiredX c xm L x ((alookup xm x).getD 0))))

/-- One alignment pass over all layers. -/
def alignPassGo (cfg : LayoutConfig) (g : Graph) (c : LayerCtx) (xm : List (LN × Nat)) :
    Nat → List (List LN) → List (LN × Nat)
  | _, [] => []
  | L, l :: rest => alignLayer cfg g c xm L l ++ alignPassGo cfg g c xm (L + 1) rest

/-- Modelled from the spec: the Coordinate Assigner's x computation (spec
section 4.4) — initial packing by order, then two iterative alignment
passes pulling nodes toward the mean of their neighbors while keeping the
minimum gap. -/
def xMap (cfg : LayoutConfig) (g : Graph) (c : LayerCtx) (os : List (List LN)) :
    List (LN × Nat) :=
  let m0 := baseAllXs cfg g os
  let m1 := alignPassGo cfg g c m0 0 os
  alignPassGo cfg g c m1 0 os

/-- The layer a working node lives on. -/
def layerOfLN (c : LayerCtx) : LN → Nat
  | .real n => layerOfD c n
  | .dum _ L => L

/-- The neighbors of a node in the snapshot (sources and targets of its
incident edges). -/
def neighborsOf (g : Graph) (n : Nat) : List Nat :=
  (g.pairs.filter (fun p => p.2 = n)).map (fun p => p.1) ++
  (g.pairs.filter (fun p => p.1 = n)).map (fun p => p.2)

/-- Average of a nonempty list of points (componentwise). -/
def avgPts (q : Nat × Nat) (qs : List (Nat × Nat)) : Nat × Nat :=
  ((qs.foldl (fun a b => a + b.1) q.1) / (qs.length + 1),
   (qs.foldl (fun a b => a + b.2) q.2) / (qs.length + 1))

/-- Modelled from the spec: the Layout Stabilizer's position choice (spec
section 4.6).  With stabilization on and a previous Layout available, a
node mapped by the IdentityMap keeps its previous position so unchanged
nodes do not move; a new node is placed at the average of its neighbors'
previous positions when any neighbor is mapped; otherwise — and whenever
stabilization is off or no previous Layout exists — the freshly computed
position is used. -/
def finalPos (cfg : LayoutConfig) (g : Graph) (prev : Option Layout)
    (im : Nat → Option Nat) (base : Nat → Nat × Nat) (n : Nat) : Nat × Nat :=
  if cfg.stabilize then
    match prev with
    | none => base n
    | some P =>
      match im n with
      | some m => (alookup P.nodePos m).getD (base n)
      | none =>
        match (neighborsOf g n).filterMap
            (fun w => (im w).bind (fun o => alookup P.nodePos o)) with
        | [] => base n
        | q :: qs => avgPts q qs
  else base n

/-- A back edge's route gets an explicit loop-back shape: extra offset
points after its first point, depending on the configured style (spec
section 4.5). -/
def loopBack (cfg : LayoutConfig) : List (Nat × Nat) → List (Nat × Nat)
  | [] => []
  | p :: rest =>
    match cfg.backStyle with
    | .curved => p :: (p.1 + cfg.nodeGap, p.2) :: rest
    | .stepped => p :: (p.1 + cfg.nodeGap, p.2) :: (p.1 + cfg.nodeGap, p.2 + cfg.layerSpace) :: rest

/-- Modelled from the spec: the Edge Router (spec section 4.5): an edge's
route is the concatenation of the positions of its endpoints and of every
dummy node along its chain; a reversed edge's point list is turned back
around and given the loop-back shape. -/
def routeEntry (cfg : LayoutConfig) (_g : Graph) (c : LayerCtx)
    (pos : LN → Nat × Nat) (isRev : Bool) (i : Nat) (p : Nat × Nat) :
    (Nat × Nat) × List (Nat × Nat) :=
  let s := if isRev then p.2 else p.1
  let t := if isRev then p.1 else p.2
  let ls := layerOfD c s
  let lt := layerOfD c t
  let pts :=
    if ls < lt then
      (List.range' ls (lt - ls + 1)).map (fun L => pos (chainNode c i s t L))
    else [pos (.real s), pos (.real t)]
  (p, if isRev then loopBack cfg pts.reverse else pts)

/-- The freshly computed position of a working node: its x from the
alignment passes over the reduced orders, its y from its layer. -/
def lnPosOf (cfg : LayoutConfig) (g : Graph) (x : LN) : Nat × Nat :=
  let c := mkCtx g
  let os := reduceIter c cfg.maxIters (initOrders g c)
  let xm := xMap cfg g c os
  ((alookup xm x).getD 0, yOfLayer cfg g c (layerOfLN c x))

/-- The freshly computed position of a real node. -/
def basePosOf (cfg : LayoutConfig) (g : Graph) (n : Nat) : Nat × Nat :=
  lnPosOf cfg g (.real n)

/-- The final (possibly stabilized) position of a real node. -/
def finPosOf (cfg : LayoutConfig) (g : Graph) (prev : Option Layout)
    (im : Nat → Option Nat) (n : Nat) : Nat × Nat :=
  finalPos cfg g prev im (basePosOf cfg g) n

/-- The position the Edge Router uses for a working node: final node
positions for real endpoints, fresh positions for dummy nodes. -/
def posLNOf (cfg : LayoutConfig) (g : Graph) (prev : Option Layout)
    (im : Nat → Option Nat) : LN → Nat × Nat
  | .real n => finPosOf cfg g prev im n
  | .dum i L => lnPosOf cfg g (.dum i L)

/-- Modelled from the spec: the full layout pipeline (spec section 2):
Cycle Breaker, Layer Assigner, Crossing Reducer, Coordinate Assigner and
Edge Router in sequence, with the Layout Stabilizer biasing the final
positions.  A pure function of its inputs. -/
def layoutPipeline (cfg : LayoutConfig) (g : Graph) (prev : Option Layout)
    (im : Nat → Option Nat) : Layout :=
  { nodePos := g.nodes.map (fun nd => (nd.id, finPosOf cfg g prev im nd.id))
    routes := g.pairs.enum.map (fun ip =>
      routeEntry cfg g (mkCtx g) (posLNOf cfg g prev im)
        (decide (ip.2 ∈ reversedEdges g)) ip.1 ip.2) }

/-- Modelled from the spec: the recognized error kinds (spec section 7):
an edge referencing a node absent from the snapshot, and cancellation by
a superseding snapshot. -/
inductive LayoutError where
  | invalidGraphReference
  | cancelledLayout
deriving DecidableEq, Repr

/-- Modelled from the spec: the engine entry point (spec section 7): a
snapshot with a dangling edge reference surfaces
`invalidGraphReference`; a cancelled pass surfaces `cancelledLayout`;
every other input produces a Layout. -/
def layoutEngine (cfg : LayoutConfig) (cancel : Bool) (g : Graph)
    (prev : Option Layout) (im : Nat → Option Nat) : Except LayoutError Layout :=
  if g.validB then
    if cancel then .error .cancelledLayout
    else .ok (layoutPipeline cfg g prev im)
  else .error .invalidGraphReference

/-- Modelled from the spec: publication of the current-Layout cache
(spec sections 5 and 7): a successful pass replaces the cache atomically;
a failing or cancelled pass leaves it untouched. -/
def publishLayout (cache : Option Layout) : Except LayoutError Layout → Option Layout
  | .ok L => some L
  | .error _ => cache

/-!
## Specification-level predicates and concrete fixtures
-/

/-- `Before l a b`: `a` occurs strictly before `b` in the list `l`. -/
def Before (l : List Nat) (a b : Nat) : Prop :=
  ∃ p q r, l = p ++ a :: q ++ b :: r

/-- `v` sits at or below `u` on a traversal stack (head = top). -/
def StackBelow (stk : List Nat) (u v : Nat) : Prop :=
  ∃ l1 l2, stk = l1 ++ u :: l2 ∧ (v = u ∨ v ∈ l2)

/-- A directed cycle in a snapshot: a nonempty edge walk from some node
back to itself. -/
def HasCycle (g : Graph) : Prop :=
  ∃ u, Relation.TransGen (fun x y => (x, y) ∈ g.pairs) u u

/-- Acyclicity of a snapshot. -/
def Acyclic (g : Graph) : Prop := ¬ HasCycle g

/-- One traversal state extends another: same stack, and visited set,
finished list and reversed set only grew (the finished list by new nodes
in front). -/
structure DfsStep (s t : DfsState) : Prop where
  stk : t.stack = s.stack
  vis : ∀ x, x ∈ s.visited → x ∈ t.visited
  post : ∃ nw, t.post = nw ++ s.post
  rev : ∀ p, p ∈ s.rev → p ∈ t.rev

/-- The invariant of the Cycle Breaker's traversal over the edge pairs
`eP`: the finished list and stack hold distinct nodes and partition the
visited set; finished sources have all their edges resolved (a
non-reversed edge finishes strictly later than its target, a reversed
edge's target is an ancestor still on the stack or finished strictly
later); and every reversed edge was marked while its source was on the
stack with its target at or below it. -/
structure DfsInv (eP : List (Nat × Nat)) (st : DfsState) : Prop where
  postNodup : st.post.Nodup
  stackNodup : st.stack.Nodup
  visIff : ∀ x, x ∈ st.visited ↔ (x ∈ st.stack ∨ x ∈ st.post)
  disj : ∀ x, x ∈ st.post → x ∉ st.stack
  edgeDone : ∀ u v, (u, v) ∈ eP → u ∈ st.post →
    (((u, v) ∈ st.rev → v = u ∨ v ∈ st.stack ∨ (v ∈ st.post ∧ Before st.post v u)) ∧
     ((u, v) ∉ st.rev → v ∈ st.post ∧ Before st.post u v))
  revPend : ∀ u v, (u, v) ∈ st.rev → u ∈ st.post ∨ StackBelow st.stack u v

/-- The number of identities of `ids` not yet visited — the fuel measure
of the traversal. -/
def unvis (ids : List Nat) (st : DfsState) : Nat :=
  (ids.filter (fun x => decide (x ∉ st.visited))).length

/-- The 4-node diamond scenario of spec section 8:
`A → B, A → C, B → D, C → D` with A = 0, B = 1, C = 2, D = 3. -/
def diamond : Graph :=
  { nodes := [{ id := 0 }, { id := 1 }, { id := 2 }, { id := 3 }]
    edges := [{ src := 0, tgt := 1 }, { src := 0, tgt := 2 },
              { src := 1, tgt := 3 }, { src := 2, tgt := 3 }] }

/-- A single node carrying a self-loop. -/
def selfLoopG : Graph :=
  { nodes := [{ id := 0 }], edges := [{ src := 0, tgt := 0 }] }

/-- The 2-cycle scenario of spec section 8: `A → B, B → A`. -/
def twoCycleG : Graph :=
  { nodes := [{ id := 0 }, { id := 1 }]
    edges := [{ src := 0, tgt := 1 }, { src := 1, tgt := 0 }] }

/-- A single isolated node. -/
def oneNodeG : Graph := { nodes := [{ id := 0 }], edges := [] }

/-- A snapshot with a dangling edge reference (target 7 is no node). -/
def danglingG : Graph :=
  { nodes := [{ id := 0 }], edges := [{ src := 0, tgt := 7 }] }

/-- The default configuration. -/
def cfgDefault : LayoutConfig := {}

/-- The default configuration with stabilization enabled. -/
def cfgStab : LayoutConfig := { stabilize := true }

/-- A concrete previous Layout for the stabilization fixtures. -/
def prevP0 : Layout :=
  { nodePos := [(0, (5, 7)), (1, (9, 11)), (2, (1, 2)), (3, (3, 4))]
    routes := [] }

/-!
## Generic list lemmas
-/

theorem length_filter_mono {α : Type} (p q : α → Bool)
    (h : ∀ x, p x = true → q x = true) (l : List α) :
    (l.filter p).length ≤ (l.filter q).length := by
  induction l with
  | nil => simp
  | cons x xs ih =>
    simp only [List.filter_cons]
    by_cases hp : p x = true
    · simp only [hp, h x hp, if_true, List.length_cons]
      exact Nat.succ_le_succ ih
    · simp only [hp, if_false]
      by_cases hq : q x = true
      · simp only [hq, if_true, List.length_cons]
        exact Nat.le_succ_of_le ih
      · simp only [hq, if_false]
        exact ih

theorem length_filter_lt (vis : List Nat) (a : Nat) (l : List Nat)
    (ha : a ∈ l) (hv : a ∉ vis) :
    (l.filter (fun x => decide (x ∉ a :: vis))).length <
      (l.filter (fun x => decide (x ∉ vis))).length := by
  induction l with
  | nil => cases ha
  | cons x xs ih =>
    simp only [List.filter_cons]
    by_cases hx : x = a
    · subst hx
      have h1 : (decide (x ∉ x :: vis)) = false := by simp
      have h2 : (decide (x ∉ vis)) = true := by simpa using hv
      simp only [h1, h2, Bool.false_eq_true, if_false, if_true, List.length_cons]
      have := length_filter_mono (fun y => decide (y ∉ x :: vis))
        (fun y => decide (y ∉ vis))
        (by intro y hy; simp at hy ⊢; exact hy.2) xs
      omega
    · have ha' : a ∈ xs := by
        rcases List.mem_cons.mp ha with h | h
        · exact absurd h.symm hx
        · exact h
      have heq : (decide (x ∉ a :: vis)) = (decide (x ∉ vis)) := by
        by_cases hxv : x ∈ vis <;> simp [hxv, hx]
      rw [heq]
      by_cases hb : (decide (x ∉ vis)) = true
      · simp only [hb, if_true, List.length_cons]
        exact Nat.succ_lt_succ (ih ha')
      · simp only [Bool.not_eq_true] at hb
        simp only [hb, if_false]
        exact ih ha'

theorem filter_length_pos (vis : List Nat) (a : Nat) (l : List Nat)
    (ha : a ∈ l) (hv : a ∉ vis) :
    0 < (l.filter (fun x => decide (x ∉ vis))).length := by
  have : a ∈ l.filter (fun x => decide (x ∉ vis)) :=
    List.mem_filter.mpr ⟨ha, by simpa using hv⟩
  exact List.length_pos.mpr (List.ne_nil_of_mem this)

theorem foldl_max_init (x : Nat) (ys : List Nat) : x ≤ ys.foldl max x := by
  induction ys generalizing x with
  | nil => exact Nat.le_refl x
  | cons y ys ih =>
    simp only [List.foldl_cons]
    exact Nat.le_trans (Nat.le_max_left x y) (ih (max x y))

theorem le_foldl_max (a x : Nat) (xs : List Nat) (h : a = x ∨ a ∈ xs) :
    a ≤ xs.foldl max x := by
  induction xs generalizing x with
  | nil =>
    rcases h with h | h
    · exact h.le
    · cases h
  | cons y ys ih =>
    simp only [List.foldl_cons]
    rcases h with h | h
    · subst h
      exact Nat.le_trans (Nat.le_max_left a y) (foldl_max_init _ ys)
    · rcases List.mem_cons.mp h with h | h
      · subst h
        exact Nat.le_trans (Nat.le_max_right x a) (foldl_max_init _ ys)
      · exact ih (max x y) (Or.inr h)

/-!
## Association list lemmas
-/

theorem alookup_append_some {α β : Type} [DecidableEq α] {l₁ l₂ : List (α × β)} {k : α} {v : β}
    (h : alookup l₁ k = some v) : alookup (l₁ ++ l₂) k = some v := by
  induction l₁ with
  | nil => simp [alookup] at h
  | cons a r ih =>
    obtain ⟨ka, va⟩ := a
    simp only [alookup, List.cons_append] at h ⊢
    by_cases hk : ka = k
    · simpa [hk] using h
    · simp only [hk, if_false] at h ⊢
      exact ih h

theorem alookup_append_none {α β : Type} [DecidableEq α] {l₁ : List (α × β)} (l₂ : List (α × β)) {k : α}
    (h : alookup l₁ k = none) : alookup (l₁ ++ l₂) k = alookup l₂ k := by
  induction l₁ with
  | nil => simp
  | cons a r ih =>
    obtain ⟨ka, va⟩ := a
    simp only [alookup, List.cons_append] at h ⊢
    by_cases hk : ka = k
    · simp [hk] at h
    · simp only [hk, if_false] at h ⊢
      exact ih h

theorem alookup_single_eq {α β : Type} [DecidableEq α] (k : α) (v : β) :
    alookup [(k, v)] k = some v := by simp [alookup]

theorem alookup_single_ne {α β : Type} [DecidableEq α] {k n : α} (v : β) (h : k ≠ n) :
    alookup [(k, v)] n = none := by simp [alookup, h]

/-!
## `Before` lemmas
-/

theorem before_append (xs : List Nat) {l : List Nat} {a b : Nat}
    (h : Before l a b) : Before (xs ++ l) a b := by
  obtain ⟨p, q, r, rfl⟩ := h
  exact ⟨xs ++ p, q, r, by simp⟩

theorem before_cons (x : Nat) {l : List Nat} {a b : Nat}
    (h : Before l a b) : Before (x :: l) a b :=
  before_append [x] h

theorem before_head {l : List Nat} {b : Nat} (a : Nat) (h : b ∈ l) :
    Before (a :: l) a b := by
  obtain ⟨s, t, rfl⟩ := List.append_of_mem h
  exact ⟨[], s, t, rfl⟩

/-!
## `DfsStep` lemmas and the generic fold lemma
-/

theorem dfsStep_refl (s : DfsState) : DfsStep s s :=
  ⟨rfl, fun _ h => h, ⟨[], rfl⟩, fun _ h => h⟩

theorem dfsStep_trans {s t u : DfsState} (h1 : DfsStep s t) (h2 : DfsStep t u) :
    DfsStep s u := by
  refine ⟨h2.stk.trans h1.stk, fun x hx => h2.vis x (h1.vis x hx), ?_,
    fun p hp => h2.rev p (h1.rev p hp)⟩
  obtain ⟨n1, e1⟩ := h1.post
  obtain ⟨n2, e2⟩ := h2.post
  exact ⟨n2 ++ n1, by rw [e2, e1, List.append_assoc]⟩

theorem foldl_general {P : DfsState → Prop} {H : Nat → DfsState → Prop}
    (f : DfsState → Nat → DfsState)
    (hmono : ∀ v s t, DfsStep s t → H v s → H v t) :
    ∀ (l : List Nat) (st : DfsState), P st →
      (∀ s v, P s → v ∈ l → P (f s v) ∧ DfsStep s (f s v) ∧ H v (f s v)) →
      P (l.foldl f st) ∧ DfsStep st (l.foldl f st) ∧ ∀ v ∈ l, H v (l.foldl f st) := by
  intro l
  induction l with
  | nil =>
    intro st hP _
    exact ⟨hP, dfsStep_refl st, by simp⟩
  | cons v vs ih =>
    intro st hP hstep
    simp only [List.foldl_cons]
    obtain ⟨P1, S1, H1⟩ := hstep st v hP (List.mem_cons_self v vs)
    obtain ⟨P2, S2, H2⟩ :=
      ih (f st v) P1 (fun s w hPs hw => hstep s w hPs (List.mem_cons_of_mem _ hw))
    refine ⟨P2, dfsStep_trans S1 S2, ?_⟩
    intro w hw
    rcases List.mem_cons.mp hw with h | h
    · subst h
      exact hmono w _ _ S2 H1
    · exact H2 w h

/-!
## `unvis` accounting
-/

theorem unvis_mono (ids : List Nat) {s t : DfsState}
    (h : ∀ x, x ∈ s.visited → x ∈ t.visited) : unvis ids t ≤ unvis ids s := by
  apply length_filter_mono
  intro x hx
  simp only [decide_eq_true_iff] at hx ⊢
  exact fun hxs => hx (h x hxs)

theorem unvis_push (ids : List Nat) (st : DfsState) (u : Nat)
    (hu : u ∈ ids) (hv : u ∉ st.visited) :
    unvis ids (dfsPush u st) < unvis ids st :=
  length_filter_lt st.visited u ids hu hv

theorem unvis_pos (ids : List Nat) (st : DfsState) (u : Nat)
    (hu : u ∈ ids) (hv : u ∉ st.visited) : 0 < unvis ids st :=
  filter_length_pos st.visited u ids hu hv

/-!
## Traversal-state projections and membership lemmas
-/

theorem dfsPush_visited (u : Nat) (st : DfsState) :
    (dfsPush u st).visited = u :: st.visited := rfl

theorem dfsPush_stack (u : Nat) (st : DfsState) :
    (dfsPush u st).stack = u :: st.stack := rfl

theorem dfsPush_post (u : Nat) (st : DfsState) : (dfsPush u st).post = st.post := rfl

theorem dfsPush_rev (u : Nat) (st : DfsState) : (dfsPush u st).rev = st.rev := rfl

theorem dfsClose_visited (u : Nat) (st : DfsState) :
    (dfsClose u st).visited = st.visited := rfl

theorem dfsClose_stack (u : Nat) (st : DfsState) :
    (dfsClose u st).stack = st.stack.tail := rfl

theorem dfsClose_post (u : Nat) (st : DfsState) :
    (dfsClose u st).post = u :: st.post := rfl

theorem dfsClose_rev (u : Nat) (st : DfsState) : (dfsClose u st).rev = st.rev := rfl

theorem mem_insertNat {a x : Nat} {l : List Nat} :
    a ∈ insertNat x l ↔ a = x ∨ a ∈ l := by
  induction l with
  | nil => simp [insertNat]
  | cons y ys ih =>
    simp only [insertNat]
    by_cases h : x ≤ y
    · simp [h]
    · simp only [h, if_false, List.mem_cons, ih]
      tauto

theorem mem_sortNat {a : Nat} {l : List Nat} : a ∈ sortNat l ↔ a ∈ l := by
  induction l with
  | nil => simp [sortNat]
  | cons x xs ih =>
    show a ∈ insertNat x (sortNat xs) ↔ _
    rw [mem_insertNat, ih]
    simp

theorem mem_adj_iff (g : Graph) (u v : Nat) : v ∈ g.adj u ↔ (u, v) ∈ g.pairs := by
  simp only [Graph.adj, List.mem_map, List.mem_filter, decide_eq_true_iff]
  constructor
  · rintro ⟨p, ⟨hp, h1⟩, h2⟩
    have : p = (u, v) := by
      cases p
      simp_all
    exact this ▸ hp
  · intro h
    exact ⟨(u, v), ⟨h, rfl⟩, rfl⟩

/-!
## Preservation of the traversal invariant
-/

theorem dfsInv_push {eP : List (Nat × Nat)} {st : DfsState} {u : Nat}
    (hI : DfsInv eP st) (hu : u ∉ st.visited) : DfsInv eP (dfsPush u st) := by
  have hus : u ∉ st.stack := fun h => hu ((hI.visIff u).mpr (Or.inl h))
  have hup : u ∉ st.post := fun h => hu ((hI.visIff u).mpr (Or.inr h))
  refine ⟨hI.postNodup, ?_, ?_, ?_, ?_, ?_⟩
  · rw [dfsPush_stack]
    exact List.nodup_cons.mpr ⟨hus, hI.stackNodup⟩
  · intro x
    rw [dfsPush_visited, dfsPush_stack, dfsPush_post]
    simp only [List.mem_cons]
    constructor
    · rintro (rfl | hx)
      · exact Or.inl (Or.inl rfl)
      · rcases (hI.visIff x).mp hx with h | h
        · exact Or.inl (Or.inr h)
        · exact Or.inr h
    · rintro ((rfl | hx) | hx)
      · exact Or.inl rfl
      · exact Or.inr ((hI.visIff x).mpr (Or.inl hx))
      · exact Or.inr ((hI.visIff x).mpr (Or.inr hx))
  · intro x hx
    rw [dfsPush_post] at hx
    rw [dfsPush_stack]
    intro hmem
    rcases List.mem_cons.mp hmem with rfl | hmem'
    · exact hup hx
    · exact hI.disj x hx hmem'
  · intro a b hab ha
    rw [dfsPush_post] at ha
    obtain ⟨C1, C2⟩ := hI.edgeDone a b hab ha
    rw [dfsPush_rev, dfsPush_stack, dfsPush_post]
    constructor
    · intro hr
      rcases C1 hr with h | h | h
      · exact Or.inl h
      · exact Or.inr (Or.inl (List.mem_cons_of_mem u h))
      · exact Or.inr (Or.inr h)
    · exact C2
  · intro a b hr
    rw [dfsPush_rev] at hr
    rcases hI.revPend a b hr with h | ⟨l1, l2, he, hv2⟩
    · exact Or.inl h
    · exact Or.inr ⟨u :: l1, l2, by rw [dfsPush_stack, he]; rfl, hv2⟩

theorem dfsInv_rev {eP : List (Nat × Nat)} {s : DfsState} {u v : Nat} {σ : List Nat}
    (hI : DfsInv eP s) (hstk : s.stack = u :: σ) (hv : v ∈ s.stack) :
    DfsInv eP { s with rev := (u, v) :: s.rev } := by
  have hust : u ∈ s.stack := by rw [hstk]; exact List.mem_cons_self u σ
  have hup : u ∉ s.post := fun h => hI.disj u h hust
  refine ⟨hI.postNodup, hI.stackNodup, hI.visIff, hI.disj, ?_, ?_⟩
  · intro a b hab ha
    obtain ⟨C1, C2⟩ := hI.edgeDone a b hab ha
    constructor
    · intro hr
      rcases List.mem_cons.mp hr with he | hr'
      · exfalso
        injection he with h1 h2
        exact hup (h1 ▸ ha)
      · exact C1 hr'
    · intro hnr
      exact C2 (fun hr' => hnr (List.mem_cons_of_mem _ hr'))
  · intro a b hr
    rcases List.mem_cons.mp hr with he | hr'
    · injection he with h1 h2
      subst h1; subst h2
      refine Or.inr ⟨[], σ, by simpa using hstk, ?_⟩
      rw [hstk] at hv
      rcases List.mem_cons.mp hv with h | h
      · exact Or.inl h
      · exact Or.inr h
    · exact hI.revPend a b hr'

theorem dfsInv_close {eP : List (Nat × Nat)} {s : DfsState} {u : Nat} {σ : List Nat}
    (hI : DfsInv eP s) (hstk : s.stack = u :: σ)
    (hadj : ∀ v, (u, v) ∈ eP → ((u, v) ∈ s.rev ∨ v ∈ s.post)) :
    DfsInv eP (dfsClose u s) := by
  have hust : u ∈ s.stack := by rw [hstk]; exact List.mem_cons_self u σ
  have hup : u ∉ s.post := fun h => hI.disj u h hust
  have hNod : (u :: σ).Nodup := hstk ▸ hI.stackNodup
  have huσ : u ∉ σ := (List.nodup_cons.mp hNod).1
  have hσN : σ.Nodup := (List.nodup_cons.mp hNod).2
  have htail : (dfsClose u s).stack = σ := by
    rw [dfsClose_stack, hstk, List.tail_cons]
  refine ⟨?_, ?_, ?_, ?_, ?_, ?_⟩
  · rw [dfsClose_post]
    exact List.nodup_cons.mpr ⟨hup, hI.postNodup⟩
  · rw [htail]
    exact hσN
  · intro x
    rw [dfsClose_visited, htail, dfsClose_post]
    have hold := hI.visIff x
    rw [hstk] at hold
    simp only [List.mem_cons] at hold ⊢
    tauto
  · intro x hx
    rw [dfsClose_post] at hx
    rw [htail]
    rcases List.mem_cons.mp hx with rfl | hx'
    · exact huσ
    · intro hmem
      exact hI.disj x hx' (by rw [hstk]; exact List.mem_cons_of_mem u hmem)
  · intro a b hab ha
    rw [dfsClose_post] at ha
    rw [dfsClose_rev, htail, dfsClose_post]
    rcases List.mem_cons.mp ha with rfl | ha'
    · -- the freshly finished node
      constructor
      · intro hr
        rcases hI.revPend a b hr with hpost | ⟨l1, l2, he, hvb⟩
        · exact absurd hpost hup
        · rw [hstk] at he
          cases l1 with
          | nil =>
            simp only [List.nil_append, List.cons.injEq] at he
            rcases hvb with h | h
            · exact Or.inl h
            · exact Or.inr (Or.inl (he.2 ▸ h))
          | cons c l1' =>
            simp only [List.cons_append, List.cons.injEq] at he
            exfalso
            apply huσ
            rw [he.2]
            exact List.mem_append_right l1' (List.mem_cons_self a l2)
      · intro hnr
        rcases hadj b hab with hr | hp
        · exact absurd hr hnr
        · exact ⟨List.mem_cons_of_mem a hp, before_head a hp⟩
    · -- nodes finished earlier
      obtain ⟨C1, C2⟩ := hI.edgeDone a b hab ha'
      constructor
      · intro hr
        rcases C1 hr with h | h | h
        · exact Or.inl h
        · rw [hstk] at h
          rcases List.mem_cons.mp h with rfl | h'
          · exact Or.inr (Or.inr ⟨List.mem_cons_self b s.post, before_head b ha'⟩)
          · exact Or.inr (Or.inl h')
        · exact Or.inr (Or.inr ⟨List.mem_cons_of_mem u h.1, before_cons u h.2⟩)
      · intro hnr
        obtain ⟨h1, h2⟩ := C2 hnr
        exact ⟨List.mem_cons_of_mem u h1, before_cons u h2⟩
  · intro a b hr
    rw [dfsClose_rev] at hr
    rw [htail, dfsClose_post]
    rcases hI.revPend a b hr with hpost | ⟨l1, l2, he, hvb⟩
    · exact Or.inl (List.mem_cons_of_mem u hpost)
    · rw [hstk] at he
      cases l1 with
      | nil =>
        simp only [List.nil_append, List.cons.injEq] at he
        exact Or.inl (he.1 ▸ List.mem_cons_self u s.post)
      | cons c l1' =>
        simp only [List.cons_append, List.cons.injEq] at he
        exact Or.inr ⟨l1', l2, he.2, hvb⟩

/-- The central lemma of the Cycle Breaker: a depth-first visit of an
unvisited node, given enough fuel, preserves the traversal invariant,
only extends the state, and finishes the node. -/
theorem dfsVisit_main (g : Graph) (ids : List Nat)
    (hval : ∀ p ∈ g.pairs, p.1 ∈ ids ∧ p.2 ∈ ids) :
    ∀ fuel u st, u ∈ ids → u ∉ st.visited → DfsInv g.pairs st → unvis ids st ≤ fuel →
      DfsInv g.pairs (dfsVisit g.adj fuel u st) ∧
      DfsStep st (dfsVisit g.adj fuel u st) ∧
      u ∈ (dfsVisit g.adj fuel u st).post := by
  intro fuel
  induction fuel with
  | zero =>
    intro u st hu hv _ hf
    have := unvis_pos ids st u hu hv
    omega
  | succ fuel ih =>
    intro u st hu hv hI hf
    have hEq : dfsVisit g.adj (fuel + 1) u st =
        dfsClose u ((g.adj u).foldl (dfsBody (dfsVisit g.adj fuel) u) (dfsPush u st)) := rfl
    rw [hEq]
    have hI1 : DfsInv g.pairs (dfsPush u st) := dfsInv_push hI hv
    have hf1 : unvis ids (dfsPush u st) ≤ fuel := by
      have := unvis_push ids st u hu hv
      omega
    obtain ⟨⟨hI2, hstk2, hf2⟩, hS2, hH2⟩ :=
      foldl_general (P := fun s => DfsInv g.pairs s ∧ s.stack = u :: st.stack ∧ unvis ids s ≤ fuel)
        (H := fun v s => (u, v) ∈ s.rev ∨ v ∈ s.post)
        (dfsBody (dfsVisit g.adj fuel) u)
        (by
          intro v s t hst hvs
          rcases hvs with h | h
          · exact Or.inl (hst.rev _ h)
          · obtain ⟨nw, hnw⟩ := hst.post
            exact Or.inr (hnw ▸ List.mem_append_right nw h))
        (g.adj u) (dfsPush u st) ⟨hI1, dfsPush_stack u st, hf1⟩
        (by
          intro s v hPs hvadj
          obtain ⟨hIs, hsk, hfs⟩ := hPs
          by_cases hv1 : v ∈ s.stack
          · have hb : dfsBody (dfsVisit g.adj fuel) u s v = { s with rev := (u, v) :: s.rev } := by
              simp [dfsBody, hv1]
            rw [hb]
            refine ⟨⟨dfsInv_rev hIs hsk hv1, hsk, hfs⟩,
              ⟨rfl, fun _ h => h, ⟨[], rfl⟩, fun p hp => List.mem_cons_of_mem _ hp⟩,
              Or.inl (List.mem_cons_self _ _)⟩
          · by_cases hv2 : v ∈ s.visited
            · have hb : dfsBody (dfsVisit g.adj fuel) u s v = s := by
                simp [dfsBody, hv1, hv2]
              rw [hb]
              have hvp : v ∈ s.post := by
                rcases (hIs.visIff v).mp hv2 with h | h
                · exact absurd h hv1
                · exact h
              exact ⟨⟨hIs, hsk, hfs⟩, dfsStep_refl s, Or.inr hvp⟩
            · have hb : dfsBody (dfsVisit g.adj fuel) u s v = dfsVisit g.adj fuel v s := by
                simp [dfsBody, hv1, hv2]
              rw [hb]
              have hvids : v ∈ ids := (hval (u, v) ((mem_adj_iff g u v).mp hvadj)).2
              obtain ⟨hI', hS', hvp'⟩ := ih v s hvids hv2 hIs hfs
              refine ⟨⟨hI', ?_, le_trans (unvis_mono ids hS'.vis) hfs⟩, hS', Or.inr hvp'⟩
              rw [hS'.stk, hsk])
    have hadj2 : ∀ w, (u, w) ∈ g.pairs →
        ((u, w) ∈ ((g.adj u).foldl (dfsBody (dfsVisit g.adj fuel) u) (dfsPush u st)).rev ∨
         w ∈ ((g.adj u).foldl (dfsBody (dfsVisit g.adj fuel) u) (dfsPush u st)).post) :=
      fun w hw => hH2 w ((mem_adj_iff g u w).mpr hw)
    refine ⟨dfsInv_close hI2 hstk2 hadj2, ?_, ?_⟩
    · refine ⟨?_, ?_, ?_, ?_⟩
      · rw [dfsClose_stack, hstk2]
        exact congrArg id rfl
      · intro x hx
        rw [dfsClose_visited]
        exact hS2.vis x (by rw [dfsPush_visited]; exact List.mem_cons_of_mem u hx)
      · obtain ⟨nw, hnw⟩ := hS2.post
        rw [dfsClose_post, hnw, dfsPush_post]
        exact ⟨u :: nw, rfl⟩
      · intro p hp
        rw [dfsClose_rev]
        exact hS2.rev p (by rw [dfsPush_rev]; exact hp)
    · rw [dfsClose_post]
      exact List.mem_cons_self _ _

theorem dfsInit_inv (eP : List (Nat × Nat)) : DfsInv eP dfsInit := by
  refine ⟨List.nodup_nil, List.nodup_nil, ?_, ?_, ?_, ?_⟩ <;> simp [dfsInit]

/-- The full Cycle Breaker run of a consistent snapshot keeps the
invariant, ends with an empty stack, and visits every node. -/
theorem dfsRun_main (g : Graph)
    (hval : ∀ p ∈ g.pairs, p.1 ∈ g.sortedIds ∧ p.2 ∈ g.sortedIds) :
    DfsInv g.pairs (dfsRun g) ∧ (dfsRun g).stack = [] ∧
      ∀ x ∈ g.sortedIds, x ∈ (dfsRun g).visited := by
  have hEq : dfsRun g =
      (g.rootIds ++ g.sortedIds).foldl
        (fun st u => if u ∈ st.visited then st else dfsVisit g.adj g.sortedIds.length u st)
        dfsInit := rfl
  rw [hEq]
  obtain ⟨hI, hS, hH⟩ :=
    foldl_general (P := DfsInv g.pairs) (H := fun x st => x ∈ st.visited)
      (fun st u => if u ∈ st.visited then st else dfsVisit g.adj g.sortedIds.length u st)
      (fun v s t hst h => hst.vis v h)
      (g.rootIds ++ g.sortedIds) dfsInit (dfsInit_inv g.pairs)
      (by
        intro s v hP hv
        dsimp only
        by_cases hvis : v ∈ s.visited
        · rw [if_pos hvis]
          exact ⟨hP, dfsStep_refl s, hvis⟩
        · rw [if_neg hvis]
          have hvids : v ∈ g.sortedIds := by
            rcases List.mem_append.mp hv with h | h
            · exact List.mem_of_mem_filter h
            · exact h
          obtain ⟨hI', hS', hp'⟩ :=
            dfsVisit_main g g.sortedIds hval g.sortedIds.length v s hvids hvis hP
              (List.length_filter_le _ _)
          exact ⟨hI', hS', (hI'.visIff v).mpr (Or.inr hp')⟩)
  refine ⟨hI, ?_, ?_⟩
  · rw [hS.stk]
    rfl
  · intro x hx
    exact hH x (List.mem_append_right _ hx)

/-- After the Cycle Breaker finishes on a consistent snapshot: the
finish order lists every node exactly once, and every edge is resolved —
a reversed edge's target precedes its source in the order (unless it is
a self-loop), a non-reversed edge's source precedes its target. -/
theorem dfs_complete (g : Graph) (hval : g.Valid) :
    (dfsRun g).post.Nodup ∧ (∀ u ∈ g.ids, u ∈ (dfsRun g).post) ∧
    (∀ u v, (u, v) ∈ g.pairs →
      (((u, v) ∈ (dfsRun g).rev → v = u ∨ Before (dfsRun g).post v u) ∧
       ((u, v) ∉ (dfsRun g).rev →
         v ∈ (dfsRun g).post ∧ Before (dfsRun g).post u v))) := by
  have hval' : ∀ p ∈ g.pairs, p.1 ∈ g.sortedIds ∧ p.2 ∈ g.sortedIds := fun p hp =>
    ⟨mem_sortNat.mpr (hval p hp).1, mem_sortNat.mpr (hval p hp).2⟩
  obtain ⟨hI, hstk, hvisAll⟩ := dfsRun_main g hval'
  have hpost : ∀ u ∈ g.ids, u ∈ (dfsRun g).post := by
    intro u hu
    have hv := hvisAll u (mem_sortNat.mpr hu)
    rcases (hI.visIff u).mp hv with h | h
    · rw [hstk] at h
      cases h
    · exact h
  refine ⟨hI.postNodup, hpost, ?_⟩
  intro u v huv
  have hu : u ∈ (dfsRun g).post := hpost u (hval _ huv).1
  obtain ⟨C1, C2⟩ := hI.edgeDone u v huv hu
  constructor
  · intro hr
    rcases C1 hr with h | h | h
    · exact Or.inl h
    · rw [hstk] at h
      cases h
    · exact Or.inr h.2
  · exact C2

/-- Every post-reversal edge that is not a self-loop goes forward in the
traversal's topological order. -/
theorem oriented_before (g : Graph) (hval : g.Valid) :
    ∀ p ∈ orientedPairs g, p.1 ≠ p.2 → Before (dfsOrder g) p.1 p.2 := by
  intro p hp hne
  obtain ⟨hN, hall, hED⟩ := dfs_complete g hval
  simp only [orientedPairs, List.mem_map] at hp
  obtain ⟨q, hq, hqe⟩ := hp
  obtain ⟨a, b⟩ := q
  obtain ⟨Cr, Cf⟩ := hED a b hq
  by_cases hr : (a, b) ∈ reversedEdges g
  · rw [if_pos hr] at hqe
    subst hqe
    rcases Cr hr with h | h
    · exact absurd h (by simpa using hne)
    · exact h
  · rw [if_neg hr] at hqe
    subst hqe
    exact (Cf hr).2

/-!
## Layer assignment lemmas
-/

theorem assignAux_append (oe : List (Nat × Nat)) :
    ∀ (xs ys : List Nat) (acc : List (Nat × Nat)),
      assignLayersAux oe (xs ++ ys) acc = assignLayersAux oe ys (assignLayersAux oe xs acc) := by
  intro xs
  induction xs with
  | nil => intro ys acc; rfl
  | cons n rest ih =>
    intro ys acc
    simp only [List.cons_append, assignLayersAux]
    exact ih ys _

theorem assignAux_keeps (oe : List (Nat × Nat)) :
    ∀ (ord : List Nat) (acc : List (Nat × Nat)) (k : Nat) (v : Nat),
      alookup acc k = some v → alookup (assignLayersAux oe ord acc) k = some v := by
  intro ord
  induction ord with
  | nil => intro acc k v h; exact h
  | cons n rest ih =>
    intro acc k v h
    simp only [assignLayersAux]
    exact ih _ k v (alookup_append_some h)

theorem assignAux_fresh (oe : List (Nat × Nat)) :
    ∀ (ord : List Nat) (acc : List (Nat × Nat)) (k : Nat),
      k ∉ ord → alookup acc k = none → alookup (assignLayersAux oe ord acc) k = none := by
  intro ord
  induction ord with
  | nil => intro acc k _ h; exact h
  | cons n rest ih =>
    intro acc k hk h
    simp only [assignLayersAux]
    have hne : n ≠ k := fun he => hk (he ▸ List.mem_cons_self n rest)
    apply ih _ k (fun hh => hk (List.mem_cons_of_mem n hh))
    rw [alookup_append_none _ h, alookup_single_ne _ hne]

theorem layerFor_gt {oe acc : List (Nat × Nat)} {s t ls : Nat}
    (hst : (s, t) ∈ oe) (hs : alookup acc s = some ls) :
    ls < layerFor oe acc t := by
  have hmem : ls ∈ (oe.filter (fun p => p.2 = t)).filterMap (fun p => alookup acc p.1) :=
    List.mem_filterMap.mpr ⟨(s, t), List.mem_filter.mpr ⟨hst, by simp⟩, hs⟩
  simp only [layerFor]
  cases hpls : (oe.filter (fun p => p.2 = t)).filterMap (fun p => alookup acc p.1) with
  | nil => rw [hpls] at hmem; cases hmem
  | cons x xs =>
    rw [hpls] at hmem
    show ls < 1 + xs.foldl max x
    have : ls ≤ xs.foldl max x := by
      rcases List.mem_cons.mp hmem with h | h
      · exact le_foldl_max ls x xs (Or.inl h)
      · exact le_foldl_max ls x xs (Or.inr h)
    omega

/-- Longest-path layering over a duplicate-free topological order
assigns strictly increasing layers along every listed edge. -/
theorem assign_edge {oe : List (Nat × Nat)} {ord : List Nat} {s t : Nat}
    (hst : (s, t) ∈ oe) (hN : ord.Nodup) (hB : Before ord s t) :
    ∃ ls lt, alookup (assignLayers oe ord) s = some ls ∧
      alookup (assignLayers oe ord) t = some lt ∧ ls < lt := by
  obtain ⟨p, q, r, rfl⟩ := hB
  obtain ⟨hleftN, htrN, hdisj⟩ := List.nodup_append.mp hN
  obtain ⟨hpN, hsqN, hdisjP⟩ := List.nodup_append.mp hleftN
  have hsp : s ∉ p := fun h => hdisjP h (List.mem_cons_self s q)
  have htp : t ∉ p := fun h =>
    hdisj (List.mem_append_left _ h) (List.mem_cons_self t r)
  have hne : s ≠ t := fun h =>
    hdisj (List.mem_append_right _ (List.mem_cons_self s q)) (h ▸ List.mem_cons_self t r)
  have htq : t ∉ q := fun h =>
    hdisj (List.mem_append_right _ (List.mem_cons_of_mem s h)) (List.mem_cons_self t r)
  show ∃ ls lt, alookup (assignLayersAux oe (p ++ (s :: q) ++ t :: r) []) s = some ls ∧
    alookup (assignLayersAux oe (p ++ (s :: q) ++ t :: r) []) t = some lt ∧ ls < lt
  rw [assignAux_append, assignAux_append]
  have hAs : alookup (assignLayersAux oe p []) s = none :=
    assignAux_fresh oe p [] s hsp rfl
  have hAt : alookup (assignLayersAux oe p []) t = none :=
    assignAux_fresh oe p [] t htp rfl
  have hBs : alookup (assignLayersAux oe (s :: q) (assignLayersAux oe p [])) s =
      some (layerFor oe (assignLayersAux oe p []) s) := by
    simp only [assignLayersAux]
    apply assignAux_keeps
    rw [alookup_append_none _ hAs, alookup_single_eq]
  have hBt : alookup (assignLayersAux oe (s :: q) (assignLayersAux oe p [])) t = none := by
    simp only [assignLayersAux]
    apply assignAux_fresh oe q _ t htq
    rw [alookup_append_none _ hAt, alookup_single_ne _ hne]
  simp only [assignLayersAux]
  have hlt : alookup (assignLayersAux oe (s :: q) (assignLayersAux oe p []) ++
      [(t, layerFor oe (assignLayersAux oe (s :: q) (assignLayersAux oe p [])) t)]) t =
      some (layerFor oe (assignLayersAux oe (s :: q) (assignLayersAux oe p [])) t) := by
    rw [alookup_append_none _ hBt, alookup_single_eq]
  refine ⟨_, _, ?_, assignAux_keeps oe r _ t _ hlt, layerFor_gt hst hBs⟩
  exact assignAux_keeps oe r _ s _ (alookup_append_some hBs)

/-!
## Cycle soundness of the reversal set
-/

theorem transGen_of_step_refl {α : Type} {E : α → α → Prop} {a b c : α}
    (h1 : E a b) (h2 : Relation.ReflTransGen E b c) : Relation.TransGen E a c := by
  induction h2 with
  | refl => exact Relation.TransGen.single h1
  | tail _ hstep ih => exact ih.tail hstep

/-- On a traversal stack chained by reversed edge direction, every entry
reaches the top. -/
theorem chainStk_reach {E : Nat → Nat → Prop} :
    ∀ (stk : List Nat) (u v : Nat),
      List.Chain' (fun a b => E b a) (u :: stk) → v ∈ u :: stk →
      Relation.ReflTransGen E v u := by
  intro stk
  induction stk with
  | nil =>
    intro u v _ hv
    rcases List.mem_cons.mp hv with rfl | hv'
    · exact Relation.ReflTransGen.refl
    · cases hv'
  | cons w stk' ih =>
    intro u v hch hv
    rw [List.chain'_cons] at hch
    rcases List.mem_cons.mp hv with rfl | hv'
    · exact Relation.ReflTransGen.refl
    · exact (ih w v hch.2 hv').trans (Relation.ReflTransGen.single hch.1)

/-- A depth-first visit whose stack is chained by edges only marks
reversals that witness a cycle. -/
theorem dfsVisit_revSound (g : Graph) :
    ∀ fuel u st,
      List.Chain' (fun a b => (b, a) ∈ g.pairs) (u :: st.stack) →
      (∀ p ∈ st.rev, HasCycle g) →
      DfsStep st (dfsVisit g.adj fuel u st) ∧
      (∀ p ∈ (dfsVisit g.adj fuel u st).rev, HasCycle g) := by
  intro fuel
  induction fuel with
  | zero =>
    intro u st _ hrev
    exact ⟨dfsStep_refl st, hrev⟩
  | succ fuel ih =>
    intro u st hch hrev
    have hEq : dfsVisit g.adj (fuel + 1) u st =
        dfsClose u ((g.adj u).foldl (dfsBody (dfsVisit g.adj fuel) u) (dfsPush u st)) := rfl
    rw [hEq]
    obtain ⟨⟨hstk2, hrev2⟩, hS2, _⟩ :=
      foldl_general
        (P := fun s => s.stack = u :: st.stack ∧ (∀ p ∈ s.rev, HasCycle g))
        (H := fun _ _ => True)
        (dfsBody (dfsVisit g.adj fuel) u)
        (fun _ _ _ _ _ => trivial)
        (g.adj u) (dfsPush u st) ⟨rfl, hrev⟩
        (by
          intro s v hPs hvadj
          obtain ⟨hsk, hrevs⟩ := hPs
          have hedge : (u, v) ∈ g.pairs := (mem_adj_iff g u v).mp hvadj
          by_cases hv1 : v ∈ s.stack
          · have hb : dfsBody (dfsVisit g.adj fuel) u s v = { s with rev := (u, v) :: s.rev } := by
              simp [dfsBody, hv1]
            rw [hb]
            refine ⟨⟨hsk, ?_⟩,
              ⟨rfl, fun _ h => h, ⟨[], rfl⟩, fun p hp => List.mem_cons_of_mem _ hp⟩, trivial⟩
            intro p hp
            rcases List.mem_cons.mp hp with rfl | hp'
            · rw [hsk] at hv1
              exact ⟨u, transGen_of_step_refl hedge (chainStk_reach st.stack u v hch hv1)⟩
            · exact hrevs p hp'
          · by_cases hv2 : v ∈ s.visited
            · have hb : dfsBody (dfsVisit g.adj fuel) u s v = s := by
                simp [dfsBody, hv1, hv2]
              rw [hb]
              exact ⟨⟨hsk, hrevs⟩, dfsStep_refl s, trivial⟩
            · have hb : dfsBody (dfsVisit g.adj fuel) u s v = dfsVisit g.adj fuel v s := by
                simp [dfsBody, hv1, hv2]
              rw [hb]
              have hch' : List.Chain' (fun a b => (b, a) ∈ g.pairs) (v :: s.stack) := by
                rw [hsk]
                exact List.chain'_cons.mpr ⟨hedge, hch⟩
              obtain ⟨hS', hrev'⟩ := ih v s hch' hrevs
              refine ⟨⟨?_, hrev'⟩, hS', trivial⟩
              rw [hS'.stk, hsk])
    refine ⟨?_, ?_⟩
    · refine ⟨?_, ?_, ?_, ?_⟩
      · rw [dfsClose_stack, hstk2]
        rfl
      · intro x hx
        rw [dfsClose_visited]
        exact hS2.vis x (List.mem_cons_of_mem u hx)
      · obtain ⟨nw, hnw⟩ := hS2.post
        rw [dfsClose_post, hnw, dfsPush_post]
        exact ⟨u :: nw, rfl⟩
      · intro p hp
        rw [dfsClose_rev]
        exact hS2.rev p hp
    · intro p hp
      rw [dfsClose_rev] at hp
      exact hrev2 p hp

/-- Every edge the Cycle Breaker reverses witnesses a cycle of the input
snapshot. -/
theorem dfsRun_revSound (g : Graph) : ∀ p ∈ (dfsRun g).rev, HasCycle g := by
  have hEq : dfsRun g =
      (g.rootIds ++ g.sortedIds).foldl
        (fun st u => if u ∈ st.visited then st else dfsVisit g.adj g.sortedIds.length u st)
        dfsInit := rfl
  rw [hEq]
  obtain ⟨⟨_, hrev⟩, _, _⟩ :=
    foldl_general
      (P := fun st => st.stack = [] ∧ ∀ p ∈ st.rev, HasCycle g)
      (H := fun _ _ => True)
      (fun st u => if u ∈ st.visited then st else dfsVisit g.adj g.sortedIds.length u st)
      (fun _ _ _ _ _ => trivial)
      (g.rootIds ++ g.sortedIds) dfsInit ⟨rfl, by simp [dfsInit]⟩
      (by
        intro s v hPs _
        obtain ⟨hsk, hrevs⟩ := hPs
        dsimp only
        by_cases hvis : v ∈ s.visited
        · rw [if_pos hvis]
          exact ⟨⟨hsk, hrevs⟩, dfsStep_refl s, trivial⟩
        · rw [if_neg hvis]
          have hch : List.Chain' (fun a b => (b, a) ∈ g.pairs) (v :: s.stack) := by
            rw [hsk]
            exact List.chain'_singleton v
          obtain ⟨hS', hrev'⟩ := dfsVisit_revSound g g.sortedIds.length v s hch hrevs
          refine ⟨⟨?_, hrev'⟩, hS', trivial⟩
          rw [hS'.stk, hsk])
  exact hrev

/-- A ranking function whose value strictly increases along every edge
certifies acyclicity. -/
theorem rank_acyclic (g : Graph) (f : Nat → Nat)
    (h : ∀ p ∈ g.pairs, f p.1 < f p.2) : Acyclic g := by
  rintro ⟨u, hcyc⟩
  have mono : ∀ a b : Nat, Relation.TransGen (fun x y => (x, y) ∈ g.pairs) a b → f a < f b := by
    intro a b hab
    induction hab with
    | single h1 => exact h (_, _) h1
    | tail _ hstep ih => exact lt_trans ih (h (_, _) hstep)
  exact lt_irrefl (f u) (mono u u hcyc)

/-!
## Pipeline support lemmas
-/

theorem finalPos_none (cfg : LayoutConfig) (g : Graph) (im : Nat → Option Nat)
    (base : Nat → Nat × Nat) (n : Nat) : finalPos cfg g none im base n = base n := by
  simp only [finalPos]
  split <;> rfl

theorem finPosOf_none (cfg : LayoutConfig) (g : Graph) (im : Nat → Option Nat) (n : Nat) :
    finPosOf cfg g none im n = basePosOf cfg g n :=
  finalPos_none cfg g im (basePosOf cfg g) n

theorem alookup_map_ids {β : Type} (f : Nat → β) (nds : List Node) (n : Nat)
    (hn : n ∈ nds.map (fun nd => nd.id)) :
    alookup (nds.map (fun nd => (nd.id, f nd.id))) n = some (f n) := by
  induction nds with
  | nil => cases hn
  | cons nd rest ih =>
    simp only [List.map_cons, alookup]
    by_cases h : nd.id = n
    · rw [if_pos h, h]
    · rw [if_neg h]
      apply ih
      simp only [List.map_cons, List.mem_cons] at hn
      rcases hn with h' | h'
      · exact absurd h'.symm h
      · exact h'

theorem reduceIter_iterate (c : LayerCtx) :
    ∀ (n : Nat) (os : List (List LN)),
      ∃ k, k ≤ n ∧ reduceIter c n os = (sweepBoth c)^[k] os := by
  intro n
  induction n with
  | zero => intro os; exact ⟨0, Nat.le_refl 0, rfl⟩
  | succ n ih =>
    intro os
    by_cases h : totalCross c (sweepBoth c os) < totalCross c os
    · obtain ⟨k, hk, he⟩ := ih (sweepBoth c os)
      refine ⟨k + 1, Nat.succ_le_succ hk, ?_⟩
      rw [show reduceIter c (n + 1) os = reduceIter c n (sweepBoth c os) from by
        simp [reduceIter, h]]
      rw [he, Function.iterate_succ_apply]
    · refine ⟨0, Nat.zero_le _, ?_⟩
      simp [reduceIter, h]

/-!
## The claims
-/

/-- C1: the repository's sole source file is a module manifest with no
executable logic — its only top-level statement is the assignment of the
`suite` dictionary (no function or class definition, no other statement),
and its `projects` dictionary declares an entry for each module family
the specification names (graph model, network ingestion, diffing,
filtering, layout, rendering/selection). -/
theorem manifest_module_is_pure_data :
    suiteModule = [PyStmt.assignSuite suite] ∧
    (suiteModule.all (fun s => !s.isLogic)) = true ∧
    (["Graph", "NetworkConnection", "Difference", "Filter", "Layout",
      "HierarchicalLayout", "View", "SeletionCoordinator"].all
      (fun m => decide (m ∈ projectNames))) = true := by decide

/-- C2: with no prior Layout, the layout pipeline is a deterministic
pure function of the Graph snapshot: two runs on the identical snapshot
(whatever identity map is supplied, since stabilization is skipped
without a previous Layout) produce identical node positions and
identical edge routes. -/
theorem pipeline_deterministic (cfg : LayoutConfig) (g : Graph)
    (im im' : Nat → Option Nat) :
    (layoutPipeline cfg g none im).nodePos = (layoutPipeline cfg g none im').nodePos ∧
    (layoutPipeline cfg g none im).routes = (layoutPipeline cfg g none im').routes := by
  have hfin : ∀ n, finPosOf cfg g none im n = finPosOf cfg g none im' n := by
    intro n
    rw [finPosOf_none, finPosOf_none]
  have hpos : posLNOf cfg g none im = posLNOf cfg g none im' := by
    funext x
    cases x with
    | real n => exact hfin n
    | dum i L => rfl
  constructor
  · show g.nodes.map _ = g.nodes.map _
    exact List.map_congr_left (fun nd _ => by rw [hfin nd.id])
  · show List.map _ _ = List.map _ _
    rw [hpos]

/-- C3 (amended): for every internally consistent snapshot, after the
Layer Assigner runs on the cycle-broken LayeringGraph, every
non-self-loop edge, in its post-reversal orientation, has a target layer
strictly greater than its source layer.  (The self-loop exclusion is
forced: a self-loop keeps equal source and target layers, see the
counterexample.) -/
theorem layer_forward (g : Graph) (hval : g.Valid) :
    ∀ p ∈ orientedPairs g, p.1 ≠ p.2 →
      ∃ ls lt, layerOf g p.1 = some ls ∧ layerOf g p.2 = some lt ∧ ls < lt := by
  intro p hp hne
  have hB := oriented_before g hval p hp hne
  obtain ⟨hN, -, -⟩ := dfs_complete g hval
  obtain ⟨s, t⟩ := p
  simp only [layerOf, layersOf]
  exact assign_edge hp hN hB

/-- C3 witness: a concrete consistent snapshot (the diamond) with a
concrete edge on which the amended forward-edge invariant holds. -/
theorem layer_forward_witness :
    diamond.Valid ∧ (0, 1) ∈ orientedPairs diamond ∧ ((0 : Nat), (1 : Nat)).1 ≠ (0, 1).2 ∧
    (∃ ls lt, layerOf diamond (0, 1).1 = some ls ∧
      layerOf diamond (0, 1).2 = some lt ∧ ls < lt) :=
  ⟨by decide, by decide, by decide,
    layer_forward diamond (by decide) (0, 1) (by decide) (by decide)⟩

/-- C3 counterexample: the claim as stated fails on a self-loop.  The
one-node snapshot with the edge `0 → 0` is internally consistent, its
cycle-broken LayeringGraph still contains the (reversed) edge `(0, 0)`,
and that edge's target layer equals its source layer — it is not
strictly greater. -/
theorem layer_forward_selfloop_cex :
    ∃ p, p ∈ orientedPairs selfLoopG ∧
      ¬ ∃ ls lt, layerOf selfLoopG p.1 = some ls ∧
          layerOf selfLoopG p.2 = some lt ∧ ls < lt := by
  refine ⟨(0, 0), by decide, ?_⟩
  rintro ⟨ls, lt, h1, h2, hlt⟩
  have hl : layerOf selfLoopG 0 = some 0 := by decide
  have h1' : layerOf selfLoopG 0 = some ls := h1
  have h2' : layerOf selfLoopG 0 = some lt := h2
  rw [hl] at h1' h2'
  injection h1' with e1
  injection h2' with e2
  omega

/-- C4: on an acyclic input graph the Cycle Breaker reverses zero edges:
its reversal set is empty and the post-reversal edge orientation is
exactly the input orientation. -/
theorem acyclic_no_reversal (g : Graph) (h : Acyclic g) :
    reversedEdges g = [] ∧ orientedPairs g = g.pairs := by
  have hnil : reversedEdges g = [] :=
    List.eq_nil_iff_forall_not_mem.mpr (fun p hp => h (dfsRun_revSound g p hp))
  refine ⟨hnil, ?_⟩
  show g.pairs.map (fun p => if p ∈ reversedEdges g then (p.2, p.1) else p) = g.pairs
  rw [hnil]
  simp

/-- C4 witness: the diamond is acyclic (certified by the identity
ranking) and the Cycle Breaker indeed reverses nothing on it. -/
theorem acyclic_no_reversal_witness :
    Acyclic diamond ∧ reversedEdges diamond = [] ∧ orientedPairs diamond = diamond.pairs :=
  ⟨rank_acyclic diamond (fun n => n) (by decide),
    (acyclic_no_reversal diamond (rank_acyclic diamond (fun n => n) (by decide))).1,
    (acyclic_no_reversal diamond (rank_acyclic diamond (fun n => n) (by decide))).2⟩

/-- C5: with stabilization enabled, a previous Layout positioning every
node, and an IdentityMap that is the identity on all nodes (nothing
changed between versions), the pipeline's new Layout gives every node
exactly its previous position. -/
theorem stabilization_identity_exact (cfg : LayoutConfig) (g : Graph) (P : Layout)
    (im : Nat → Option Nat) (hcfg : cfg.stabilize = true)
    (hid : ∀ n ∈ g.ids, im n = some n)
    (hprev : ∀ n ∈ g.ids, (alookup P.nodePos n).isSome = true) :
    ∀ n ∈ g.ids, alookup (layoutPipeline cfg g (some P) im).nodePos n =
      alookup P.nodePos n := by
  intro n hn
  have hmap : (layoutPipeline cfg g (some P) im).nodePos =
      g.nodes.map (fun nd => (nd.id, finPosOf cfg g (some P) im nd.id)) := rfl
  rw [hmap, alookup_map_ids _ g.nodes n hn]
  obtain ⟨p, hp⟩ := Option.isSome_iff_exists.mp (hprev n hn)
  have him := hid n hn
  simp only [finPosOf, finalPos, hcfg, if_true, him, hp, Option.getD_some]

/-- C5 witness: the diamond with the identity map, stabilization on, and
a fully populated previous Layout keeps every previous position. -/
theorem stabilization_identity_exact_witness :
    cfgStab.stabilize = true ∧
    (∀ n ∈ diamond.ids, (fun x : Nat => some x) n = some n) ∧
    (∀ n ∈ diamond.ids, (alookup prevP0.nodePos n).isSome = true) ∧
    (∀ n ∈ diamond.ids,
      alookup (layoutPipeline cfgStab diamond (some prevP0) (fun x => some x)).nodePos n =
        alookup prevP0.nodePos n) :=
  ⟨rfl, by decide, by decide,
    stabilization_identity_exact cfgStab diamond prevP0 (fun x => some x) rfl
      (by decide) (by decide)⟩

/-- C6: the engine succeeds on every structurally valid snapshot when
not cancelled (cycles, self-loops, disconnected and empty graphs
included, since `validB` only checks edge references), the Layout it
produces covers every node and every edge, the only error kinds it ever
surfaces are `invalidGraphReference` and `cancelledLayout`, and a
failing or cancelled pass leaves the cached Layout untouched. -/
theorem engine_error_discipline (cfg : LayoutConfig) (cancel : Bool) (g : Graph)
    (prev : Option Layout) (im : Nat → Option Nat) (cache : Option Layout) :
    (g.validB = true → cancel = false →
      layoutEngine cfg cancel g prev im = Except.ok (layoutPipeline cfg g prev im)) ∧
    ((layoutPipeline cfg g prev im).nodePos.length = g.nodes.length ∧
     (layoutPipeline cfg g prev im).routes.length = g.edges.length) ∧
    (∀ e, layoutEngine cfg cancel g prev im = Except.error e →
      (e = LayoutError.invalidGraphReference ∨ e = LayoutError.cancelledLayout) ∧
      publishLayout cache (layoutEngine cfg cancel g prev im) = cache) := by
  refine ⟨?_, ⟨?_, ?_⟩, ?_⟩
  · intro hv hc
    simp [layoutEngine, hv, hc]
  · simp [layoutPipeline]
  · simp [layoutPipeline, Graph.pairs]
  · intro e he
    refine ⟨?_, ?_⟩
    · cases e
      · exact Or.inl rfl
      · exact Or.inr rfl
    · rw [he]
      rfl

/-- C6 witness: the cyclic 2-cycle snapshot is valid and lays out
successfully; a cancelled pass and a dangling reference surface the two
error kinds and leave a concrete cache untouched. -/
theorem engine_error_discipline_witness :
    twoCycleG.validB = true ∧
    layoutEngine cfgDefault false twoCycleG none (fun _ => none) =
      Except.ok (layoutPipeline cfgDefault twoCycleG none (fun _ => none)) ∧
    publishLayout (some prevP0)
      (layoutEngine cfgDefault true twoCycleG none (fun _ => none)) = some prevP0 ∧
    layoutEngine cfgDefault false danglingG none (fun _ => none) =
      Except.error LayoutError.invalidGraphReference :=
  ⟨by decide,
    (engine_error_discipline cfgDefault false twoCycleG none (fun _ => none) none).1
      (by decide) rfl,
    ((engine_error_discipline cfgDefault true twoCycleG none (fun _ => none)
        (some prevP0)).2.2 LayoutError.cancelledLayout rfl).2,
    rfl⟩

/-- C7: on the 4-node diamond (A=0, B=1, C=2, D=3) the pipeline puts A
on layer 0, B and C on layer 1, D on layer 2; the final per-layer order
is the fixed, reproducible `[[A], [B, C], [D]]`; and the resulting
ordering has exactly zero edge crossings. -/
theorem diamond_scenario :
    layerOf diamond 0 = some 0 ∧ layerOf diamond 1 = some 1 ∧
    layerOf diamond 2 = some 1 ∧ layerOf diamond 3 = some 2 ∧
    finalOrders cfgDefault diamond =
      [[LN.real 0], [LN.real 1, LN.real 2], [LN.real 3]] ∧
    totalCross (mkCtx diamond) (finalOrders cfgDefault diamond) = 0 := by decide

/-- C8: the Crossing Reducer always terminates within the configured
iteration bound: the reduced orders are exactly `k` alternating
downward/upward sweep iterations applied to the initial orders, for some
`k` not exceeding the configured maximum (smaller when an iteration
stops improving the crossing count). -/
theorem crossing_reducer_bounded (cfg : LayoutConfig) (g : Graph) :
    ∃ k, k ≤ cfg.maxIters ∧
      finalOrders cfg g = (sweepBoth (mkCtx g))^[k] (initOrders g (mkCtx g)) :=
  reduceIter_iterate (mkCtx g) cfg.maxIters (initOrders g (mkCtx g))

/-- C9: all 17 project entries of the manifest share
`subDir = "IdealGraphVisualizer"`, `sourceDirs = ["src"]` and
`checkstyle = "Data"`. -/
theorem projects_uniform_structure :
    suite.projects.length = 17 ∧
    (suite.projects.all (fun p =>
      decide (p.2.subDir = "IdealGraphVisualizer") &&
      decide (p.2.sourceDirs = ["src"]) &&
      decide (p.2.checkstyle = "Data"))) = true := by decide

/-- C10: `NetworkConnection` is the only project with a `dependencies`
key (value `["Data"]`); `Bytecodes` lists its dependencies only under
the misspelled key `dependecnies`; every project's `javaCompliance` is
`"1.8"` except `NetworkConnection`'s malformed `"1.8="`. -/
theorem dependency_and_compliance_quirks :
    ((suite.projects.filter (fun p => p.2.dependencies.isSome)).map (fun p => p.1)) =
      ["NetworkConnection"] ∧
    (projectNamed "NetworkConnection").map (fun p => p.dependencies) =
      some (some ["Data"]) ∧
    (projectNamed "Bytecodes").map (fun p => p.dependecnies) =
      some (some ["Data", "Graph", "Util"]) ∧
    (projectNamed "Bytecodes").map (fun p => p.dependencies) = some none ∧
    ((suite.projects.filter (fun p => decide (p.1 ≠ "NetworkConnection"))).all
      (fun p => decide (p.2.javaCompliance = "1.8"))) = true ∧
    (projectNamed "NetworkConnection").map (fun p => p.javaCompliance) = some "1.8=" := by
  decide

end Visualizer
